import Mathlib

/-!
Verification of the triton standard library (`python/triton/stdlib.py`).

The file embeds the integer-level behaviour of the module: the error
propagation of Python floor division and modulus (`//`, `%`), the
`where`-based `minimum`/`maximum`, `cdiv`, the 2-D index remap
`swizzle2d`, the expression graph built by `softmax`, and the
`export` registration of the module public surface.
-/

/-- Modelled from the spec: the error taxonomy of §7.  `invalidArgument`
is the failure the spec requires for non-positive swizzle sizes; nothing
in the source raises it.  `zeroDivision` models the failure of the
primitive layer when Python `//` or `%` receives a zero divisor. -/
inductive TritonError where
  | invalidArgument
  | zeroDivision
deriving DecidableEq, Repr

/-- Python floor division `a // b`: floor rounding, failing on a zero
divisor as the primitive layer does. -/
def pyFloorDiv (a b : ℤ) : Except TritonError ℤ :=
  if b = 0 then Except.error TritonError.zeroDivision else Except.ok (Int.fdiv a b)

/-- Python modulus `a % b`: sign follows the divisor, failing on a zero
divisor as the primitive layer does. -/
def pyMod (a b : ℤ) : Except TritonError ℤ :=
  if b = 0 then Except.error TritonError.zeroDivision else Except.ok (Int.fmod a b)

/-- `tlcore.where(cond, x, y)` evaluated on scalar integers: the backend
select primitive returns `x` when the condition holds and `y` otherwise.
(The Lean keyword `where` forces the changed name.) -/
def tlWhere (c : Bool) (x y : ℤ) : ℤ :=
  if c then x else y

/-- `minimum(x, y) = tlcore.where(x < y, x, y)` from the source. -/
def minimum (x y : ℤ) : ℤ :=
  tlWhere (decide (x < y)) x y

/-- `maximum(x, y) = tlcore.where(x > y, x, y)` from the source. -/
def maximum (x y : ℤ) : ℤ :=
  tlWhere (decide (x > y)) x y

/-- `cdiv(x, div) = (x + div - 1) // div` from the source, in the region
where the division succeeds. -/
def cdiv (x div : ℤ) : ℤ :=
  Int.fdiv (x + div - 1) div

/-- `cdiv` with the failure of the primitive layer division made
explicit: the function body performs no check of its own. -/
def cdivE (x div : ℤ) : Except TritonError ℤ :=
  pyFloorDiv (x + div - 1) div

/-- `swizzle2d(i, j, size_i, size_j, size_g)` from the source, with every
`//` and `%` checked for a zero divisor exactly where the primitive layer
would check it.  The source rebinds `size_g` to
`minimum(size_i - off_i, size_g)`; the rebinding is `size_g2` here. -/
def swizzle2dE (i j size_i size_j size_g : ℤ) : Except TritonError (ℤ × ℤ) := do
  let ij := i * size_j + j
  let size_gj := size_g * size_j
  let group_id ← pyFloorDiv ij size_gj
  let off_i := group_id * size_g
  let size_g2 := minimum (size_i - off_i) size_g
  let m1 ← pyMod ij size_g2
  let new_i := off_i + m1
  let m2 ← pyMod ij size_gj
  let new_j ← pyFloorDiv m2 size_g2
  return (new_i, new_j)

/-- The value computed by `swizzle2d(i, j, size_i, size_j, size_g)` when
no division fails (total companion of `swizzle2dE`, with the totalised
`Int.fdiv`/`Int.fmod` in place of the checked primitives). -/
def swizzle2d (i j size_i size_j size_g : ℤ) : ℤ × ℤ :=
  let ij := i * size_j + j
  let size_gj := size_g * size_j
  let group_id := Int.fdiv ij size_gj
  let off_i := group_id * size_g
  let size_g2 := minimum (size_i - off_i) size_g
  (off_i + Int.fmod ij size_g2, Int.fdiv (Int.fmod ij size_gj) size_g2)

/-- Modelled from the spec: the reference algorithm of §4.2, written from
the spec pseudocode (with `eff_g` and `min`), to be compared with the
source function `swizzle2d`. -/
def swizzle2dSpec (i j size_i size_j size_g : ℤ) : ℤ × ℤ :=
  let ij := i * size_j + j
  let size_gj := size_g * size_j
  let group_id := Int.fdiv ij size_gj
  let off_i := group_id * size_g
  let eff_g := min (size_i - off_i) size_g
  (off_i + Int.fmod ij eff_g, Int.fdiv (Int.fmod ij size_gj) eff_g)

/-- Modelled from the spec: the symbolic primitive operators of §6 that
`softmax` composes (subtraction, exponential, axis reduction max and sum,
and the division primitive `fdiv` carrying the rounding-mode constant).
The primitive layer lives outside the source file; each operator is an
expression-graph node with its ordered operands. -/
inductive Expr where
  | var (id : ℕ)
  | sub (a b : Expr)
  | exp (a : Expr)
  | reduceMax (a : Expr) (axis : ℕ)
  | reduceSum (a : Expr) (axis : ℕ)
  | fdivOp (a b : Expr) (ieeeRounding : Bool)
deriving DecidableEq, Repr

/-- `softmax(x, ieee_rounding)` from the source: it builds
`z = x - max(x, 0)`, `num = exp(z)`, `den = sum(num, 0)` and returns
`fdiv(num, den, ieee_rounding)`. -/
def softmax (x : Expr) (ieee_rounding : Bool) : Expr :=
  let z := Expr.sub x (Expr.reduceMax x 0)
  let num := Expr.exp z
  let den := Expr.reduceSum num 0
  Expr.fdivOp num den ieee_rounding

/-- A Python function object as far as the export registry observes it:
its `__name__`. -/
structure PyFunc where
  pyName : String
deriving DecidableEq, Repr

/-- An entry that could sit in the module list `__all__`: either a public
name string (what the spec describes) or a function object (what the
source appends). -/
inductive ExportItem where
  | name (s : String)
  | fn (f : PyFunc)
deriving DecidableEq, Repr

/-- The `export` decorator from the source, with the module-level mutable
list `__all__` passed as explicit state: `__all__.append(func)` then
`return func`.  (`export` is a Lean keyword, hence the tick.) -/
def export' (all : List ExportItem) (func : PyFunc) : List ExportItem × PyFunc :=
  (all ++ [ExportItem.fn func], func)

/-- The decorated functions of the module, in declaration order. -/
def stdlibFuncs : List PyFunc :=
  [⟨"abs"⟩, ⟨"cdiv"⟩, ⟨"minimum"⟩, ⟨"maximum"⟩, ⟨"sigmoid"⟩,
   ⟨"softmax"⟩, ⟨"ravel"⟩, ⟨"swizzle2d"⟩, ⟨"zeros_like"⟩]

/-- The registry `__all__` after module load: `__all__ = []` followed by
one `export` application per decorated function, in declaration order. -/
def loadStdlib : List ExportItem :=
  stdlibFuncs.foldl (fun all f => (export' all f).1) []

theorem minimum_eq_min (x y : ℤ) : minimum x y = min x y := by
  unfold minimum tlWhere
  rcases lt_or_le x y with h | h
  · simp [h, min_eq_left h.le]
  · simp [not_lt.mpr h, min_eq_right h]

theorem ediv_eq_of_range {x b q : ℤ} (hb : 0 < b) (h1 : b * q ≤ x) (h2 : x < b * q + b) :
    x / b = q := by
  have hq : q ≤ x / b := (Int.le_ediv_iff_mul_le hb).mpr (by linarith [mul_comm q b])
  have hq2 : x / b < q + 1 := by
    have he : (q + 1) * b = b * q + b := by ring
    exact (Int.ediv_lt_iff_lt_mul hb).mpr (by omega)
  omega

theorem dvd_small_eq_zero {e m : ℤ} (he : 0 < e) (hd : e ∣ m) (h1 : -e < m) (h2 : m < e) :
    m = 0 := by
  rcases hd with ⟨k, rfl⟩
  rcases lt_trichotomy k 0 with hk | hk | hk
  · have h3 : e * k ≤ e * (-1) := mul_le_mul_of_nonneg_left (by omega) he.le
    have h4 : e * (-1) = -e := by ring
    omega
  · simp [hk]
  · have h3 : e * 1 ≤ e * k := mul_le_mul_of_nonneg_left (by omega) he.le
    have h4 : e * 1 = e := by ring
    omega

theorem swizzle2d_bounds {n d g i j : ℤ} (hd : 0 < d) (hg : 0 < g)
    (hi0 : 0 ≤ i) (hin : i < n) (hj0 : 0 ≤ j) (hjd : j < d) :
    0 ≤ (i * d + j) / (g * d) ∧
    0 < min (n - (i * d + j) / (g * d) * g) g ∧
    (i * d + j) / (g * d) * g + min (n - (i * d + j) / (g * d) * g) g ≤ n ∧
    0 ≤ (i * d + j) % (g * d) ∧
    (i * d + j) % (g * d) < min (n - (i * d + j) / (g * d) * g) g * d := by
  have hgd : 0 < g * d := mul_pos hg hd
  set x := i * d + j with hx
  have hx0 : 0 ≤ x := add_nonneg (mul_nonneg hi0 hd.le) hj0
  have hxn : x < n * d := by
    have h1 : i * d ≤ (n - 1) * d := mul_le_mul_of_nonneg_right (by omega) hd.le
    have h2 : (n - 1) * d = n * d - d := by ring
    omega
  set q := x / (g * d) with hqdef
  set r := x % (g * d) with hrdef
  have hqr : g * d * q + r = x := Int.ediv_add_emod x (g * d)
  have hr0 : 0 ≤ r := Int.emod_nonneg x hgd.ne'
  have hrlt : r < g * d := Int.emod_lt_of_pos x hgd
  have hq0 : 0 ≤ q := Int.ediv_nonneg hx0 hgd.le
  have hqg : q * g < n := by
    have h1 : g * d * q < n * d := by linarith
    have h2 : q * g * d = g * d * q := by ring
    have h3 : q * g * d < n * d := by linarith
    exact lt_of_mul_lt_mul_right h3 hd.le
  have he0 : 0 < min (n - q * g) g := lt_min (by omega) hg
  have hen : q * g + min (n - q * g) g ≤ n := by
    have h1 := min_le_left (n - q * g) g
    omega
  have hred : r < min (n - q * g) g * d := by
    rcases le_total g (n - q * g) with hc | hc
    · rw [min_eq_right hc]
      exact hrlt
    · rw [min_eq_left hc]
      have h1 : (n - q * g) * d = n * d - g * d * q := by ring
      linarith
  exact ⟨hq0, he0, hen, hr0, hred⟩

theorem swizzle2d_eval {n d g i j : ℤ} (hd : 0 < d) (hg : 0 < g)
    (he : 0 < min (n - (i * d + j) / (g * d) * g) g) :
    swizzle2d i j n d g =
      ((i * d + j) / (g * d) * g + (i * d + j) % min (n - (i * d + j) / (g * d) * g) g,
       (i * d + j) % (g * d) / min (n - (i * d + j) / (g * d) * g) g) := by
  have hgd : 0 < g * d := mul_pos hg hd
  simp only [swizzle2d, minimum_eq_min]
  rw [Int.fdiv_eq_ediv _ hgd.le, Int.fmod_eq_emod _ hgd.le]
  rw [Int.fmod_eq_emod _ he.le, Int.fdiv_eq_ediv _ he.le]

theorem swizzle2d_mapsTo {n d g : ℤ} (hd : 0 < d) (hg : 0 < g) :
    Set.MapsTo (fun p : ℤ × ℤ => swizzle2d p.1 p.2 n d g)
      (Set.Ico 0 n ×ˢ Set.Ico 0 d) (Set.Ico 0 n ×ˢ Set.Ico 0 d) := by
  rintro ⟨i, j⟩ ⟨⟨hi0, hin⟩, hj0, hjd⟩
  obtain ⟨hq0, he0, hen, hr0, hred⟩ := swizzle2d_bounds hd hg hi0 hin hj0 hjd
  have hm0 : 0 ≤ (i * d + j) % min (n - (i * d + j) / (g * d) * g) g :=
    Int.emod_nonneg _ he0.ne'
  have hml : (i * d + j) % min (n - (i * d + j) / (g * d) * g) g <
      min (n - (i * d + j) / (g * d) * g) g :=
    Int.emod_lt_of_pos _ he0
  simp only [Set.mem_prod, Set.mem_Ico, swizzle2d_eval hd hg he0]
  refine ⟨⟨?_, ?_⟩, ?_, ?_⟩
  · exact add_nonneg (mul_nonneg hq0 hg.le) hm0
  · linarith
  · exact Int.ediv_nonneg hr0 he0.le
  · refine (Int.ediv_lt_iff_lt_mul he0).mpr ?_
    linarith [mul_comm d (min (n - (i * d + j) / (g * d) * g) g)]

theorem swizzle2d_injOn {n d g : ℤ} (hd : 0 < d) (hg : 0 < g) :
    Set.InjOn (fun p : ℤ × ℤ => swizzle2d p.1 p.2 n d g)
      (Set.Ico 0 n ×ˢ Set.Ico 0 d) := by
  rintro ⟨i, j⟩ ⟨⟨hi0, hin⟩, hj0, hjd⟩ ⟨i', j'⟩ ⟨⟨hi0', hin'⟩, hj0', hjd'⟩ heq
  obtain ⟨hq0, he0, hen, hr0, hred⟩ := swizzle2d_bounds hd hg hi0 hin hj0 hjd
  obtain ⟨hq0', he0', hen', hr0', hred'⟩ := swizzle2d_bounds hd hg hi0' hin' hj0' hjd'
  simp only [swizzle2d_eval hd hg he0, swizzle2d_eval hd hg he0', Prod.mk.injEq] at heq
  obtain ⟨h1, h2⟩ := heq
  set x := i * d + j with hxd
  set x' := i' * d + j' with hxd'
  set q := x / (g * d) with hqd
  set q' := x' / (g * d) with hqd'
  set e := min (n - q * g) g with hed
  set e' := min (n - q' * g) g with hed'
  set r := x % (g * d) with hrd
  set r' := x' % (g * d) with hrd'
  have heg : e ≤ g := by rw [hed]; exact min_le_right _ _
  have heg' : e' ≤ g := by rw [hed']; exact min_le_right _ _
  have hs0 : 0 ≤ x % e := Int.emod_nonneg x he0.ne'
  have hsl : x % e < e := Int.emod_lt_of_pos x he0
  have hs0' : 0 ≤ x' % e' := Int.emod_nonneg x' he0'.ne'
  have hsl' : x' % e' < e' := Int.emod_lt_of_pos x' he0'
  -- the two group ids agree: both are the g-quotient of the shared first component
  have hmul : g * q = q * g := mul_comm g q
  have hmul' : g * q' = q' * g := mul_comm g q'
  have hv : (q * g + x % e) / g = q :=
    ediv_eq_of_range hg (by linarith) (by linarith)
  have hv' : (q' * g + x' % e') / g = q' :=
    ediv_eq_of_range hg (by linarith) (by linarith)
  have hqq : q = q' := by rw [← hv, h1, hv']
  have hee : e = e' := by rw [hed, hed', hqq]
  -- the first components now force the e-remainders of x and x' to agree
  have hmm : x % e = x' % e := by
    have h7 : x % e = x' % e' := by
      rw [hqq] at h1
      linarith
    rw [hee]
    rw [hee] at h7
    exact h7
  -- hence e divides r - r'
  have hxqr : g * d * q + r = x := Int.ediv_add_emod x (g * d)
  have hxqr' : g * d * q' + r' = x' := Int.ediv_add_emod x' (g * d)
  have hdvd : e ∣ r - r' := by
    have h3 : (x - x') % e = 0 := Int.emod_eq_emod_iff_emod_sub_eq_zero.mp hmm
    have h4 : x - x' = r - r' := by rw [← hxqr, ← hxqr', hqq]; ring
    rw [h4] at h3
    exact Int.dvd_of_emod_eq_zero h3
  -- the second components give equal e-quotients of r and r', so r = r'
  have hb1 : e * (r / e) + r % e = r := Int.ediv_add_emod r e
  have hb2 : e * (r' / e) + r' % e = r' := Int.ediv_add_emod r' e
  have hm1 : 0 ≤ r % e := Int.emod_nonneg r he0.ne'
  have hm2 : r % e < e := Int.emod_lt_of_pos r he0
  have hm1' : 0 ≤ r' % e := Int.emod_nonneg r' he0.ne'
  have hm2' : r' % e < e := Int.emod_lt_of_pos r' he0
  have hq2 : r / e = r' / e := by rw [h2, hee]
  have hcancel : e * (r / e) = e * (r' / e) := by rw [hq2]
  have h5 : r - r' = r % e - r' % e := by linarith
  have h6 : r - r' = 0 := dvd_small_eq_zero he0 hdvd (by linarith) (by linarith)
  -- recover the flat index, then the coordinates
  have hxx : x = x' := by rw [← hxqr, ← hxqr', hqq]; omega
  have hij : i * d + j = i' * d + j' := by rw [← hxd, ← hxd', hxx]
  have hring : i * d - i' * d = d * (i - i') := by ring
  have hjj : j' - j = 0 := by
    refine dvd_small_eq_zero hd ⟨i - i', by linarith⟩ (by omega) (by omega)
  have hii : i = i' := by
    have : i * d = i' * d := by omega
    exact mul_right_cancel₀ hd.ne' this
  simp [hii, show j = j' by omega]

theorem swizzle2d_eq_spec (i j n d g : ℤ) : swizzle2d i j n d g = swizzle2dSpec i j n d g := by
  simp only [swizzle2d, swizzle2dSpec, minimum_eq_min]

theorem swizzle2dE_eq_ok {n d g i j : ℤ} (hgd : g * d ≠ 0)
    (he : minimum (n - Int.fdiv (i * d + j) (g * d) * g) g ≠ 0) :
    swizzle2dE i j n d g = Except.ok (swizzle2d i j n d g) := by
  unfold swizzle2dE swizzle2d pyFloorDiv pyMod
  simp [hgd, he, Except.bind, bind, Functor.map, Except.map, pure, Except.pure]

/-- Claim C1: for all positive `size_i`, `size_j`, `size_g`, the map
`(i, j) ↦ swizzle2d(i, j, size_i, size_j, size_g)` restricted to
`[0, size_i) × [0, size_j)` is a bijection onto that same grid: no
collisions and full coverage. -/
theorem swizzle2d_bijOn (size_i size_j size_g : ℤ)
    (hsi : 0 < size_i) (hsj : 0 < size_j) (hsg : 0 < size_g) :
    Set.BijOn (fun p : ℤ × ℤ => swizzle2d p.1 p.2 size_i size_j size_g)
      (Set.Ico 0 size_i ×ˢ Set.Ico 0 size_j) (Set.Ico 0 size_i ×ˢ Set.Ico 0 size_j) := by
  have hfin : (Set.Ico (0:ℤ) size_i ×ˢ Set.Ico (0:ℤ) size_j).Finite :=
    (Set.finite_Ico _ _).prod (Set.finite_Ico _ _)
  exact (hfin.injOn_iff_bijOn_of_mapsTo (swizzle2d_mapsTo hsj hsg)).mp
    (swizzle2d_injOn hsj hsg)

/-- Witness for C1: the bijection at the concrete sizes 4, 4, 2. -/
theorem swizzle2d_bijOn_witness :
    (0:ℤ) < 4 ∧ (0:ℤ) < 2 ∧
    Set.BijOn (fun p : ℤ × ℤ => swizzle2d p.1 p.2 4 4 2)
      (Set.Ico 0 4 ×ˢ Set.Ico 0 4) (Set.Ico 0 4 ×ˢ Set.Ico 0 4) :=
  ⟨by decide, by decide, swizzle2d_bijOn 4 4 2 (by decide) (by decide) (by decide)⟩

/-- Claim C2, counterexample: `swizzle2d(0, 0, size_i := -1, size_j := 4,
size_g := 4)` has a non-positive `size_i`, yet the call signals no
failure of any kind — it proceeds through the arithmetic and returns a
pair, so no `InvalidArgument` validation exists in the function. -/
theorem swizzle2d_validation_cex :
    (-1 : ℤ) ≤ 0 ∧
    swizzle2dE 0 0 (-1) 4 4 = Except.ok (0, 0) ∧
    swizzle2dE 0 0 (-1) 4 4 ≠ Except.error TritonError.invalidArgument := by
  refine ⟨by decide, rfl, ?_⟩
  intro h
  rw [show swizzle2dE 0 0 (-1) 4 4 = Except.ok (0, 0) from rfl] at h
  exact Except.noConfusion h

/-- Claim C2, amended: `swizzle2d` performs no validation of its size
parameters.  With `size_g = 0` the call proceeds into the arithmetic and
fails at `ij // size_gj` with the primitive-layer division-by-zero
error, not `InvalidArgument`; with `size_i = -1` (and positive `size_j`,
`size_g`) no failure is signalled at all. -/
theorem swizzle2d_no_validation :
    swizzle2dE 0 0 4 4 0 = Except.error TritonError.zeroDivision ∧
    swizzle2dE 0 0 (-1) 4 4 = Except.ok (0, 0) := ⟨rfl, rfl⟩

/-- Claim C3: on in-range integer inputs with positive sizes, `swizzle2d`
returns, without failing, exactly the pair prescribed by the reference
algorithm of the spec, bit for bit. -/
theorem swizzle2d_matches_spec (i j size_i size_j size_g : ℤ)
    (hsi : 0 < size_i) (hsj : 0 < size_j) (hsg : 0 < size_g)
    (hi0 : 0 ≤ i) (hin : i < size_i) (hj0 : 0 ≤ j) (hjd : j < size_j) :
    swizzle2dE i j size_i size_j size_g =
      Except.ok (swizzle2dSpec i j size_i size_j size_g) := by
  have hgd : 0 < size_g * size_j := mul_pos hsg hsj
  obtain ⟨hq0, he0, hen, hr0, hred⟩ := swizzle2d_bounds hsj hsg hi0 hin hj0 hjd
  have h1 : Int.fdiv (i * size_j + j) (size_g * size_j) =
      (i * size_j + j) / (size_g * size_j) := Int.fdiv_eq_ediv _ hgd.le
  have h2 : minimum (size_i - Int.fdiv (i * size_j + j) (size_g * size_j) * size_g)
      size_g ≠ 0 := by
    rw [h1, minimum_eq_min]
    exact he0.ne'
  rw [swizzle2dE_eq_ok hgd.ne' h2, swizzle2d_eq_spec]

/-- Witness for C3 at the concrete input i = 1, j = 2, sizes 4, 4, 2. -/
theorem swizzle2d_matches_spec_witness :
    swizzle2dE 1 2 4 4 2 = Except.ok (swizzle2dSpec 1 2 4 4 2) :=
  swizzle2d_matches_spec 1 2 4 4 2 (by decide) (by decide) (by decide)
    (by decide) (by decide) (by decide) (by decide)

/-- Claim C4: on equal operands both `minimum` and `maximum` return the
first operand, for every evaluation of the comparison-plus-select
formula. -/
theorem minimum_maximum_tie (x y : ℤ) (h : x = y) :
    minimum x y = x ∧ maximum x y = x := by
  subst h
  constructor <;> simp [minimum, maximum, tlWhere]

/-- Witness for C4 at the concrete equal operands 3 and 3. -/
theorem minimum_maximum_tie_witness : minimum 3 3 = 3 ∧ maximum 3 3 = 3 :=
  minimum_maximum_tie 3 3 rfl

/-- Claim C5: for every integer `x` and positive `div`, `cdiv(x, div)`
is the ceiling of the rational quotient `x / div`; on `div = 0` the
function performs no check of its own and the failure surfaces as the
division-by-zero of the primitive layer. -/
theorem cdiv_is_ceil (x div : ℤ) (hdiv : 0 < div) :
    cdiv x div = ⌈(x : ℚ) / (div : ℚ)⌉ ∧
    cdivE x 0 = Except.error TritonError.zeroDivision := by
  constructor
  · unfold cdiv
    rw [Int.fdiv_eq_ediv _ hdiv.le]
    have h1 := Int.ediv_add_emod (x + div - 1) div
    have h2 := Int.emod_nonneg (x + div - 1) hdiv.ne'
    have h3 := Int.emod_lt_of_pos (x + div - 1) hdiv
    set q := (x + div - 1) / div with hq
    have hdq : (0:ℚ) < (div:ℚ) := by exact_mod_cast hdiv
    symm
    rw [Int.ceil_eq_iff]
    constructor
    · rw [lt_div_iff hdq]
      have hring : (q - 1) * div = div * q - div := by ring
      have hb : (q - 1) * div < x := by linarith
      exact_mod_cast hb
    · rw [div_le_iff hdq]
      have hcomm : q * div = div * q := mul_comm q div
      have hb : x ≤ q * div := by linarith
      exact_mod_cast hb
  · rfl

/-- Witness for C5 at the concrete input x = 7, div = 2. -/
theorem cdiv_is_ceil_witness :
    cdiv 7 2 = ⌈(7 : ℚ) / (2 : ℚ)⌉ ∧
    cdivE 7 0 = Except.error TritonError.zeroDivision :=
  cdiv_is_ceil 7 2 (by decide)

/-- The two concrete values the spec lists for `cdiv`. -/
theorem cdiv_examples : cdiv 7 2 = 4 ∧ cdiv 8 2 = 4 := by decide

/-- Claim C6, counterexample: the first entry appended to `__all__` is
the function object itself, not its name string, so the registry does
not consist of public-name strings. -/
theorem export_registers_name_cex :
    loadStdlib.head? = some (ExportItem.fn ⟨"abs"⟩) ∧
    ExportItem.fn ⟨"abs"⟩ ≠ ExportItem.name "abs" := by
  refine ⟨rfl, ?_⟩
  intro h
  exact ExportItem.noConfusion h

/-- Claim C6, amended: the export registration appends each decorated
function object itself (the callable, not its name string) to the
ordered, append-only registry list, exactly once per decorated function,
in declaration order. -/
theorem export_registers_callables :
    loadStdlib = stdlibFuncs.map ExportItem.fn ∧ loadStdlib.Nodup := by
  refine ⟨rfl, ?_⟩
  decide

/-- Claim C7: at i = 1, j = 0, size_i = 4, size_j = 4, size_g = 2, the
remap returns (0, 2), matching the documented example grid. -/
theorem swizzle2d_scenario_one : swizzle2dE 1 0 4 4 2 = Except.ok (0, 2) := rfl

/-- Claim C8: `softmax` builds exactly the expression
`fdiv(exp(x - max(x, 0)), sum(exp(x - max(x, 0)), 0), ieee_rounding)`,
with the compile-time constant `ieee_rounding` forwarded unevaluated as
the rounding-mode argument of the division primitive. -/
theorem softmax_builds_graph (x : Expr) (ieee_rounding : Bool) :
    softmax x ieee_rounding =
      Expr.fdivOp (Expr.exp (Expr.sub x (Expr.reduceMax x 0)))
        (Expr.reduceSum (Expr.exp (Expr.sub x (Expr.reduceMax x 0))) 0)
        ieee_rounding := rfl

/-- Claim C9: with `size_g = 1` the remap is the identity on the grid
`[0, size_i) × [0, size_j)` for all positive sizes. -/
theorem swizzle2d_identity_g_one (i j size_i size_j : ℤ) (hsi : 0 < size_i)
    (hsj : 0 < size_j)
    (hi0 : 0 ≤ i) (hin : i < size_i) (hj0 : 0 ≤ j) (hjd : j < size_j) :
    swizzle2d i j size_i size_j 1 = (i, j) := by
  have hqq : (i * size_j + j) / (1 * size_j) = i := by
    rw [one_mul]
    refine ediv_eq_of_range hsj ?_ ?_
    · have h := mul_comm size_j i
      linarith
    · have h := mul_comm size_j i
      linarith
  have he : min (size_i - i * 1) 1 = 1 := by
    rw [mul_one]
    exact min_eq_right (by omega)
  have hepos : (0:ℤ) < min (size_i - (i * size_j + j) / (1 * size_j) * 1) 1 := by
    rw [hqq, mul_one]
    exact lt_min (by omega) one_pos
  have hmod : (i * size_j + j) % (1 * size_j) = j := by
    rw [one_mul, add_comm, Int.add_mul_emod_self, Int.emod_eq_of_lt hj0 hjd]
  rw [swizzle2d_eval hsj one_pos hepos, hqq, hmod, he]
  simp

/-- Witness for C9 at the concrete input i = 2, j = 3, sizes 5, 7. -/
theorem swizzle2d_identity_g_one_witness : swizzle2d 2 3 5 7 1 = (2, 3) :=
  swizzle2d_identity_g_one 2 3 5 7 (by decide) (by decide) (by decide)
    (by decide) (by decide) (by decide)

/-- Claim C10: the export decorator returns its argument unchanged, so
decorating a function registers it without altering the callable. -/
theorem export_returns_func (all : List ExportItem) (func : PyFunc) :
    (export' all func).2 = func := rfl
